import Mathlib

/-!
Verification development for the `astrbot_plugin_bili_resolver` repository
(`main.py` and `wbi.py`).

The Python sources are shallowly embedded below.  Pure string manipulation is
modelled on `List Char` (`CL`); Python `str` values appear as Lean `String` at
the interfaces.  External collaborators that the repository calls but does not
define (the JSON parser `json.loads`, the MD5 digest from `hashlib`, the clock
`time.time()`, and the HTTP transport) are passed in as explicit parameters, so
every theorem quantifies over their behaviour.  The relevant fragments of the
Python standard library's `urllib.parse` and `pathlib.PurePosixPath` are
modelled concretely, following CPython's implementation.
-/

abbrev CL := List Char

/-! ### Generic character-list helpers (models of Python `str` methods) -/

/-- Model of CPython `str.replace(old, new)`: a single left-to-right pass,
replacing non-overlapping occurrences and never rescanning replacement text.
Implemented with a fuel argument (`fuel = s.length` suffices) so that the
recursion is structural and kernel-reducible.  The `old = ""` case of Python
(which inserts `new` everywhere) is not modelled; the repository never uses an
empty pattern. -/
def raGo (pat repl : CL) : Nat → CL → CL
  | 0, s => s
  | fuel+1, s =>
    if !pat.isEmpty && pat.isPrefixOf s then
      repl ++ raGo pat repl fuel (s.drop pat.length)
    else
      match s with
      | [] => []
      | c :: rest => c :: raGo pat repl fuel rest

/-- `replaceAll pat repl s` models `s.replace(pat, repl)` for `pat ≠ ""`. -/
def replaceAll (pat repl s : CL) : CL := raGo pat repl s.length s

/-- Does `pat` occur as a contiguous substring of `s`? -/
def occurs (pat : CL) : CL → Bool
  | [] => pat.isPrefixOf []
  | c :: t => pat.isPrefixOf (c :: t) || occurs pat t

theorem isPrefixOf_length_le {pat s : CL} (h : pat.isPrefixOf s = true) :
    pat.length ≤ s.length := by
  induction pat generalizing s with
  | nil => simp
  | cons a as ih =>
    cases s with
    | nil => simp [List.isPrefixOf] at h
    | cons b bs =>
      simp only [List.isPrefixOf, Bool.and_eq_true] at h
      simpa using ih h.2

theorem isPrefixOf_append (pat x : CL) : pat.isPrefixOf (pat ++ x) = true := by
  induction pat with
  | nil => simp [List.isPrefixOf]
  | cons a as ih => simp [List.isPrefixOf, ih]

theorem raGo_nil (pat repl : CL) (fuel : Nat) : raGo pat repl fuel [] = [] := by
  cases fuel with
  | zero => rfl
  | succ f =>
    simp only [raGo]
    cases pat with
    | nil => simp [List.isPrefixOf, List.isEmpty]
    | cons a as => simp [List.isPrefixOf, List.isEmpty]

theorem raGo_succ (pat repl : CL) (f : Nat) (s : CL) :
    raGo pat repl (f+1) s =
      if !pat.isEmpty && pat.isPrefixOf s then
        repl ++ raGo pat repl f (s.drop pat.length)
      else
        match s with
        | [] => []
        | c :: rest => c :: raGo pat repl f rest := rfl

theorem raGo_fuel (pat repl : CL) :
    ∀ f g s, s.length ≤ f → s.length ≤ g → raGo pat repl f s = raGo pat repl g s := by
  intro f
  induction f with
  | zero =>
    intro g s hf _
    have : s = [] := by
      cases s with
      | nil => rfl
      | cons a t => simp at hf
    subst this; rw [raGo_nil, raGo_nil]
  | succ f ih =>
    intro g s hf hg
    cases s with
    | nil => rw [raGo_nil, raGo_nil]
    | cons c rest =>
      cases g with
      | zero => simp at hg
      | succ g =>
        rw [raGo_succ, raGo_succ]
        by_cases hcond : (!pat.isEmpty && pat.isPrefixOf (c :: rest)) = true
        · rw [if_pos hcond, if_pos hcond]
          have hpat : 1 ≤ pat.length := by
            rcases pat with _ | ⟨a, as⟩
            · simp [List.isEmpty] at hcond
            · simp
          have hlf : ((c :: rest).drop pat.length).length ≤ f := by
            simp only [List.length_drop, List.length_cons]
            simp only [List.length_cons] at hf
            omega
          have hlg : ((c :: rest).drop pat.length).length ≤ g := by
            simp only [List.length_drop, List.length_cons]
            simp only [List.length_cons] at hg
            omega
          rw [ih g _ hlf hlg]
        · rw [if_neg hcond, if_neg hcond]
          simp only [List.length_cons] at hf hg
          simp only [ih g rest (by omega) (by omega)]

theorem replaceAll_match {pat : CL} (repl x : CL) (hpat : pat ≠ []) :
    replaceAll pat repl (pat ++ x) = repl ++ replaceAll pat repl x := by
  have hne : (!pat.isEmpty && pat.isPrefixOf (pat ++ x)) = true := by
    rcases pat with _ | ⟨a, as⟩
    · exact absurd rfl hpat
    · simp [List.isEmpty, isPrefixOf_append]
  have hlen1 : 1 ≤ pat.length := by
    rcases pat with _ | _
    · exact absurd rfl hpat
    · simp
  unfold replaceAll
  have htot : (pat ++ x).length = (pat.length + x.length - 1) + 1 := by
    simp only [List.length_append]; omega
  rw [htot, raGo_succ, if_pos hne]
  congr 1
  rw [List.drop_left]
  exact raGo_fuel pat repl _ _ x (by omega) (le_refl _)

theorem replaceAll_skip {pat : CL} (repl : CL) (c : Char) (rest : CL)
    (h : pat.isPrefixOf (c :: rest) = false) :
    replaceAll pat repl (c :: rest) = c :: replaceAll pat repl rest := by
  unfold replaceAll
  simp only [List.length_cons]
  rw [raGo_succ, if_neg (by simp [h])]

theorem replaceAll_nil (pat repl : CL) : replaceAll pat repl [] = [] := raGo_nil _ _ _

/-- Characters not equal to the pattern's head pass through `replaceAll`
unchanged. -/
theorem replaceAll_pass {p : Char} {ps : CL} (repl : CL) :
    ∀ (l x : CL), p ∉ l →
      replaceAll (p :: ps) repl (l ++ x) = l ++ replaceAll (p :: ps) repl x := by
  intro l
  induction l with
  | nil => intro x _; rfl
  | cons c t ih =>
    intro x hmem
    have hc : p ≠ c := fun h => hmem (h ▸ List.mem_cons_self c t)
    have hpre : (p :: ps).isPrefixOf (c :: (t ++ x)) = false := by
      simp only [List.isPrefixOf, Bool.and_eq_false_iff]
      left
      simp [beq_eq_false_iff_ne, hc]
    rw [List.cons_append, replaceAll_skip _ _ _ hpre, ih x (fun h => hmem (List.mem_cons_of_mem c h))]
    simp

/-! ### CQ escape sequences (`main.py` lines 152–163) -/

/-- Right fold of per-character expansion (`concatMap`), used to describe the
action of single-character `replaceAll` passes. -/
def cm (f : Char → CL) : CL → CL
  | [] => []
  | c :: t => f c ++ cm f t

theorem cm_append (f : Char → CL) (a b : CL) : cm f (a ++ b) = cm f a ++ cm f b := by
  induction a with
  | nil => rfl
  | cons c t ih => simp [cm, ih]

theorem cm_id (s : CL) : cm (fun c => [c]) s = s := by
  induction s with
  | nil => rfl
  | cons c t ih => simp [cm, ih]

theorem cm_cm (f g : Char → CL) (s : CL) :
    cm g (cm f s) = cm (fun c => cm g (f c)) s := by
  induction s with
  | nil => rfl
  | cons c t ih => simp [cm, cm_append, ih]

theorem cm_congr {f g : Char → CL} (h : ∀ c, f c = g c) (s : CL) : cm f s = cm g s := by
  induction s with
  | nil => rfl
  | cons c t ih => simp [cm, h, ih]

theorem replaceAll_single (c : Char) (r : CL) (s : CL) :
    replaceAll [c] r s = cm (fun a => if a = c then r else [a]) s := by
  induction s with
  | nil => rw [replaceAll_nil]; rfl
  | cons a t ih =>
    by_cases hac : a = c
    · subst hac
      have : replaceAll [a] r (a :: t) = replaceAll [a] r ([a] ++ t) := rfl
      rw [this, replaceAll_match r t (by simp), ih]
      simp [cm]
    · have hpre : [c].isPrefixOf (a :: t) = false := by
        simp [List.isPrefixOf, beq_eq_false_iff_ne, Ne.symm hac]
      rw [replaceAll_skip _ _ _ hpre, ih]
      simp [cm, hac]

/-- The four CQ escape sequences. -/
def ampSeq : CL := ['&', 'a', 'm', 'p', ';']
def c44 : CL := ['&', '#', '4', '4', ';']
def c91 : CL := ['&', '#', '9', '1', ';']
def c93 : CL := ['&', '#', '9', '3', ';']

/-- Unescape of a CQ `data` payload, exactly as `_extract_from_raw_message`
performs it (`main.py` 156–162): `&amp;` first, then `&#44;`, `&#91;`, `&#93;`. -/
def cqUnescape (s : CL) : CL :=
  replaceAll c93 [']']
    (replaceAll c91 ['[']
      (replaceAll c44 [',']
        (replaceAll ampSeq ['&'] s)))

/-- Modelled from the spec: the CQ *encoder* is not part of the repository
(only decoding appears in `main.py`); §6 of the spec fixes the escaping as
`&` → `&amp;`, `,` → `&#44;`, `[` → `&#91;`, `]` → `&#93;`, with `&` escaped
first so that the escapes it introduces are not re-escaped. -/
def cqEscape (s : CL) : CL :=
  replaceAll [']'] c93
    (replaceAll ['['] c91
      (replaceAll [','] c44
        (replaceAll ['&'] ampSeq s)))

/-- Per-character view of the encoder. -/
def escChar (c : Char) : CL :=
  if c = '&' then ampSeq
  else if c = ',' then c44
  else if c = '[' then c91
  else if c = ']' then c93
  else [c]

/-- Per-character view after the `&amp;` → `&` pass. -/
def escChar1 (c : Char) : CL :=
  if c = ',' then c44
  else if c = '[' then c91
  else if c = ']' then c93
  else [c]

/-- Per-character view after the `&#44;` → `,` pass. -/
def escChar2 (c : Char) : CL :=
  if c = '[' then c91
  else if c = ']' then c93
  else [c]

/-- Per-character view after the `&#91;` → `[` pass. -/
def escChar3 (c : Char) : CL :=
  if c = ']' then c93
  else [c]

theorem cqEscape_cm (s : CL) : cqEscape s = cm escChar s := by
  unfold cqEscape
  rw [replaceAll_single, replaceAll_single, replaceAll_single, replaceAll_single]
  rw [cm_cm, cm_cm, cm_cm]
  refine cm_congr (fun c => ?_) s
  by_cases h1 : c = '&'
  · subst h1; rfl
  by_cases h2 : c = ','
  · subst h2; rfl
  by_cases h3 : c = '['
  · subst h3; simp [escChar, h1, h2, cm, ampSeq, c44, c91, c93]
  by_cases h4 : c = ']'
  · subst h4; simp [escChar, h1, h2, h3, cm, ampSeq, c44, c91, c93]
  · simp [escChar, h1, h2, h3, h4, cm]

/-- If every character either expands to itself or to a block starting with
`&`, then a pattern free of `&` can only match literal text. -/
theorem cm_lit_of_amp_blocks {f : Char → CL}
    (hf : ∀ c, f c = [c] ∨ ∃ b, f c = '&' :: b) :
    ∀ (l : CL), '&' ∉ l → ∀ t, l.isPrefixOf (cm f t) = true → l.isPrefixOf t = true := by
  intro l
  induction l with
  | nil => intro _ t _; simp [List.isPrefixOf]
  | cons d l' ih =>
    intro hmem t hpre
    cases t with
    | nil => simp [cm, List.isPrefixOf] at hpre
    | cons c t' =>
      rcases hf c with hc | ⟨b, hc⟩
      · have : cm f (c :: t') = c :: cm f t' := by simp [cm, hc]
        rw [this] at hpre
        simp only [List.isPrefixOf, Bool.and_eq_true, beq_iff_eq] at hpre ⊢
        exact ⟨hpre.1, ih (fun h => hmem (List.mem_cons_of_mem d h)) t' hpre.2⟩
      · have : cm f (c :: t') = '&' :: (b ++ cm f t') := by simp [cm, hc]
        rw [this] at hpre
        simp only [List.isPrefixOf, Bool.and_eq_true, beq_iff_eq] at hpre
        exact absurd (hpre.1 ▸ List.mem_cons_self d l') hmem

theorem escChar1_blocks : ∀ c, escChar1 c = [c] ∨ ∃ b, escChar1 c = '&' :: b := by
  intro c
  by_cases h1 : c = ','
  · subst h1; right; exact ⟨['#','4','4',';'], rfl⟩
  by_cases h2 : c = '['
  · subst h2; right; exact ⟨['#','9','1',';'], by simp [escChar1, c91]⟩
  by_cases h3 : c = ']'
  · subst h3; right; exact ⟨['#','9','3',';'], by simp [escChar1, h1, h2, c93]⟩
  · left; simp [escChar1, h1, h2, h3]

theorem escChar2_blocks : ∀ c, escChar2 c = [c] ∨ ∃ b, escChar2 c = '&' :: b := by
  intro c
  by_cases h2 : c = '['
  · subst h2; right; exact ⟨['#','9','1',';'], rfl⟩
  by_cases h3 : c = ']'
  · subst h3; right; exact ⟨['#','9','3',';'], by simp [escChar2, h2, c93]⟩
  · left; simp [escChar2, h2, h3]

theorem escChar3_blocks : ∀ c, escChar3 c = [c] ∨ ∃ b, escChar3 c = '&' :: b := by
  intro c
  by_cases h3 : c = ']'
  · subst h3; right; exact ⟨['#','9','3',';'], rfl⟩
  · left; simp [escChar3, h3]

/-- Instance of `replaceAll_pass` stated for an arbitrary nonempty pattern. -/
theorem replaceAll_pass_head (pat repl l x : CL) (p : Char) (ps : CL)
    (hpat : pat = p :: ps) (h : p ∉ l) :
    replaceAll pat repl (l ++ x) = l ++ replaceAll pat repl x := by
  subst hpat; exact replaceAll_pass repl l x h

/-- First decode pass: `&amp;` → `&` over encoded text. -/
theorem decode_amp (s : CL) : replaceAll ampSeq ['&'] (cm escChar s) = cm escChar1 s := by
  induction s with
  | nil => simp [cm, replaceAll_nil]
  | cons c t ih =>
    by_cases h1 : c = '&'
    · subst h1
      have he : cm escChar ('&' :: t) = ampSeq ++ cm escChar t := by simp [cm, escChar]
      rw [he, replaceAll_match _ _ (by simp [ampSeq]), ih]
      simp [cm, escChar1, ampSeq]
    by_cases h2 : c = ','
    · subst h2
      have he : cm escChar (',' :: t) = '&' :: (['#','4','4',';'] ++ cm escChar t) := by
        simp [cm, escChar, c44]
      rw [he]
      have hpre : ampSeq.isPrefixOf ('&' :: (['#','4','4',';'] ++ cm escChar t)) = false := by
        simp [ampSeq, List.isPrefixOf]
      rw [replaceAll_skip _ _ _ hpre]
      rw [replaceAll_pass_head ampSeq ['&'] ['#','4','4',';'] (cm escChar t) '&' ['a','m','p',';'] rfl (by decide), ih]
      simp [cm, escChar1, h1, c44]
    by_cases h3 : c = '['
    · subst h3
      have he : cm escChar ('[' :: t) = '&' :: (['#','9','1',';'] ++ cm escChar t) := by
        simp [cm, escChar, c91]
      rw [he]
      have hpre : ampSeq.isPrefixOf ('&' :: (['#','9','1',';'] ++ cm escChar t)) = false := by
        simp [ampSeq, List.isPrefixOf]
      rw [replaceAll_skip _ _ _ hpre]
      rw [replaceAll_pass_head ampSeq ['&'] ['#','9','1',';'] (cm escChar t) '&' ['a','m','p',';'] rfl (by decide), ih]
      simp [cm, escChar1, h1, h2, c91]
    by_cases h4 : c = ']'
    · subst h4
      have he : cm escChar (']' :: t) = '&' :: (['#','9','3',';'] ++ cm escChar t) := by
        simp [cm, escChar, c93]
      rw [he]
      have hpre : ampSeq.isPrefixOf ('&' :: (['#','9','3',';'] ++ cm escChar t)) = false := by
        simp [ampSeq, List.isPrefixOf]
      rw [replaceAll_skip _ _ _ hpre]
      rw [replaceAll_pass_head ampSeq ['&'] ['#','9','3',';'] (cm escChar t) '&' ['a','m','p',';'] rfl (by decide), ih]
      simp [cm, escChar1, h1, h2, h3, c93]
    · have he : cm escChar (c :: t) = c :: cm escChar t := by
        simp [cm, escChar, h1, h2, h3, h4]
      rw [he]
      have hpre : ampSeq.isPrefixOf (c :: cm escChar t) = false := by
        simp only [ampSeq, List.isPrefixOf, Bool.and_eq_false_iff]
        left
        simp [beq_eq_false_iff_ne, Ne.symm h1]
      rw [replaceAll_skip _ _ _ hpre, ih]
      simp [cm, escChar1, h1, h2, h3, h4]

/-- Second decode pass: `&#44;` → `,`, sound only when the original payload
contains no literal `&#44;`. -/
theorem decode_c44 : ∀ s : CL, occurs c44 s = false →
    replaceAll c44 [','] (cm escChar1 s) = cm escChar2 s := by
  intro s
  induction s with
  | nil => intro _; simp [cm, replaceAll_nil]
  | cons c t ih =>
    intro hocc
    simp only [occurs, Bool.or_eq_false_iff] at hocc
    obtain ⟨hocc1, hocc2⟩ := hocc
    by_cases h1 : c = ','
    · subst h1
      have he : cm escChar1 (',' :: t) = c44 ++ cm escChar1 t := by simp [cm, escChar1]
      rw [he, replaceAll_match _ _ (by simp [c44]), ih hocc2]
      simp [cm, escChar2, c44]
    by_cases h2 : c = '['
    · subst h2
      have he : cm escChar1 ('[' :: t) = '&' :: (['#','9','1',';'] ++ cm escChar1 t) := by
        simp [cm, escChar1, h1, c91]
      rw [he]
      have hpre : c44.isPrefixOf ('&' :: (['#','9','1',';'] ++ cm escChar1 t)) = false := by
        simp [c44, List.isPrefixOf]
      rw [replaceAll_skip _ _ _ hpre]
      rw [replaceAll_pass_head c44 [','] ['#','9','1',';'] (cm escChar1 t) '&' ['#','4','4',';'] rfl (by decide), ih hocc2]
      simp [cm, escChar2, h1, c91]
    by_cases h3 : c = ']'
    · subst h3
      have he : cm escChar1 (']' :: t) = '&' :: (['#','9','3',';'] ++ cm escChar1 t) := by
        simp [cm, escChar1, h1, h2, c93]
      rw [he]
      have hpre : c44.isPrefixOf ('&' :: (['#','9','3',';'] ++ cm escChar1 t)) = false := by
        simp [c44, List.isPrefixOf]
      rw [replaceAll_skip _ _ _ hpre]
      rw [replaceAll_pass_head c44 [','] ['#','9','3',';'] (cm escChar1 t) '&' ['#','4','4',';'] rfl (by decide), ih hocc2]
      simp [cm, escChar2, h1, h2, c93]
    by_cases h4 : c = '&'
    · subst h4
      have he : cm escChar1 ('&' :: t) = '&' :: cm escChar1 t := by
        simp [cm, escChar1, h1, h2, h3]
      rw [he]
      have hpre : c44.isPrefixOf ('&' :: cm escChar1 t) = false := by
        by_contra hcon
        rw [Bool.not_eq_false] at hcon
        have h5 : (['#','4','4',';'] : CL).isPrefixOf (cm escChar1 t) = true := by
          simpa [c44, List.isPrefixOf] using hcon
        have h6 := cm_lit_of_amp_blocks escChar1_blocks ['#','4','4',';'] (by decide) t h5
        have h7 : c44.isPrefixOf ('&' :: t) = true := by
          simpa [c44, List.isPrefixOf] using h6
        rw [h7] at hocc1
        simp at hocc1
      rw [replaceAll_skip _ _ _ hpre, ih hocc2]
      simp [cm, escChar2, h1, h2, h3]
    · have he : cm escChar1 (c :: t) = c :: cm escChar1 t := by
        simp [cm, escChar1, h1, h2, h3]
      rw [he]
      have hpre : c44.isPrefixOf (c :: cm escChar1 t) = false := by
        simp only [c44, List.isPrefixOf, Bool.and_eq_false_iff]
        left
        simp [beq_eq_false_iff_ne, Ne.symm h4]
      rw [replaceAll_skip _ _ _ hpre, ih hocc2]
      simp [cm, escChar2, h1, h2, h3]

/-- Third decode pass: `&#91;` → `[`. -/
theorem decode_c91 : ∀ s : CL, occurs c91 s = false →
    replaceAll c91 ['['] (cm escChar2 s) = cm escChar3 s := by
  intro s
  induction s with
  | nil => intro _; simp [cm, replaceAll_nil]
  | cons c t ih =>
    intro hocc
    simp only [occurs, Bool.or_eq_false_iff] at hocc
    obtain ⟨hocc1, hocc2⟩ := hocc
    by_cases h2 : c = '['
    · subst h2
      have he : cm escChar2 ('[' :: t) = c91 ++ cm escChar2 t := by simp [cm, escChar2]
      rw [he, replaceAll_match _ _ (by simp [c91]), ih hocc2]
      simp [cm, escChar3, c91]
    by_cases h3 : c = ']'
    · subst h3
      have he : cm escChar2 (']' :: t) = '&' :: (['#','9','3',';'] ++ cm escChar2 t) := by
        simp [cm, escChar2, h2, c93]
      rw [he]
      have hpre : c91.isPrefixOf ('&' :: (['#','9','3',';'] ++ cm escChar2 t)) = false := by
        simp [c91, List.isPrefixOf]
      rw [replaceAll_skip _ _ _ hpre]
      rw [replaceAll_pass_head c91 ['['] ['#','9','3',';'] (cm escChar2 t) '&' ['#','9','1',';'] rfl (by decide), ih hocc2]
      simp [cm, escChar3, h2, c93]
    by_cases h4 : c = '&'
    · subst h4
      have he : cm escChar2 ('&' :: t) = '&' :: cm escChar2 t := by
        simp [cm, escChar2, h2, h3]
      rw [he]
      have hpre : c91.isPrefixOf ('&' :: cm escChar2 t) = false := by
        by_contra hcon
        rw [Bool.not_eq_false] at hcon
        have h5 : (['#','9','1',';'] : CL).isPrefixOf (cm escChar2 t) = true := by
          simpa [c91, List.isPrefixOf] using hcon
        have h6 := cm_lit_of_amp_blocks escChar2_blocks ['#','9','1',';'] (by decide) t h5
        have h7 : c91.isPrefixOf ('&' :: t) = true := by
          simpa [c91, List.isPrefixOf] using h6
        rw [h7] at hocc1
        simp at hocc1
      rw [replaceAll_skip _ _ _ hpre, ih hocc2]
      simp [cm, escChar3, h2, h3]
    · have he : cm escChar2 (c :: t) = c :: cm escChar2 t := by
        simp [cm, escChar2, h2, h3]
      rw [he]
      have hpre : c91.isPrefixOf (c :: cm escChar2 t) = false := by
        simp only [c91, List.isPrefixOf, Bool.and_eq_false_iff]
        left
        simp [beq_eq_false_iff_ne, Ne.symm h4]
      rw [replaceAll_skip _ _ _ hpre, ih hocc2]
      simp [cm, escChar3, h2, h3]

/-- Fourth decode pass: `&#93;` → `]`. -/
theorem decode_c93 : ∀ s : CL, occurs c93 s = false →
    replaceAll c93 [']'] (cm escChar3 s) = s := by
  intro s
  induction s with
  | nil => intro _; simp [cm, replaceAll_nil]
  | cons c t ih =>
    intro hocc
    simp only [occurs, Bool.or_eq_false_iff] at hocc
    obtain ⟨hocc1, hocc2⟩ := hocc
    by_cases h3 : c = ']'
    · subst h3
      have he : cm escChar3 (']' :: t) = c93 ++ cm escChar3 t := by simp [cm, escChar3]
      rw [he, replaceAll_match _ _ (by simp [c93]), ih hocc2]
      simp [c93]
    by_cases h4 : c = '&'
    · subst h4
      have he : cm escChar3 ('&' :: t) = '&' :: cm escChar3 t := by
        simp [cm, escChar3, h3]
      rw [he]
      have hpre : c93.isPrefixOf ('&' :: cm escChar3 t) = false := by
        by_contra hcon
        rw [Bool.not_eq_false] at hcon
        have h5 : (['#','9','3',';'] : CL).isPrefixOf (cm escChar3 t) = true := by
          simpa [c93, List.isPrefixOf] using hcon
        have h6 := cm_lit_of_amp_blocks escChar3_blocks ['#','9','3',';'] (by decide) t h5
        have h7 : c93.isPrefixOf ('&' :: t) = true := by
          simpa [c93, List.isPrefixOf] using h6
        rw [h7] at hocc1
        simp at hocc1
      rw [replaceAll_skip _ _ _ hpre, ih hocc2]
    · have he : cm escChar3 (c :: t) = c :: cm escChar3 t := by
        simp [cm, escChar3, h3]
      rw [he]
      have hpre : c93.isPrefixOf (c :: cm escChar3 t) = false := by
        simp only [c93, List.isPrefixOf, Bool.and_eq_false_iff]
        left
        simp [beq_eq_false_iff_ne, Ne.symm h4]
      rw [replaceAll_skip _ _ _ hpre, ih hocc2]

/-- Round trip for payloads free of literal escape sequences. -/
theorem cq_roundtrip (s : CL) (h44 : occurs c44 s = false)
    (h91 : occurs c91 s = false) (h93 : occurs c93 s = false) :
    cqUnescape (cqEscape s) = s := by
  rw [cqEscape_cm]
  unfold cqUnescape
  rw [decode_amp, decode_c44 s h44, decode_c91 s h91, decode_c93 s h93]

/-! ### Model of the relevant fragment of `urllib.parse` (CPython)

The repository calls `urllib.parse.urlparse(url).hostname` and
`urllib.parse.urlparse(msg).path`.  The model below follows CPython's
`urlsplit`/`urlparse`: the URL is left-stripped of C0 controls and space, tab
and newline bytes are removed, an optional scheme is split off, the netloc is
taken after `//` up to the next `/?#`, bracketed hosts are validated (a
mismatched bracket or an invalid bracketed host raises `ValueError`, modelled
as `none`), and `hostname` is the part of the netloc after the last `@`,
without port, lower-cased.  Unicode NFKC netloc checking and full `ipaddress`
validation are approximated (they only affect exotic inputs); `Char.toLower`
is ASCII-only. -/

def isC0OrSpace (c : Char) : Bool := c.toNat ≤ 0x20

def preprocessUrl (u : CL) : CL :=
  (u.dropWhile isC0OrSpace).filter fun c => !(c = '\t' || c = '\n' || c = '\r')

def isSchemeChar (c : Char) : Bool :=
  c.isAlpha || c.isDigit || c = '+' || c = '-' || c = '.'

/-- Split off `scheme:` when present and well-formed; returns the (lower-cased)
scheme and the remainder. -/
def splitScheme (u : CL) : CL × CL :=
  match u.findIdx? (fun c => c = ':') with
  | some i =>
    if 0 < i
        && (match u.head? with
            | some c0 => c0.isAlpha
            | none => false)
        && (u.take i).all isSchemeChar
    then ((u.take i).map Char.toLower, u.drop (i+1))
    else ([], u)
  | none => ([], u)

def isNetlocEnd (c : Char) : Bool := c = '/' || c = '?' || c = '#'

def isHexDigit (c : Char) : Bool :=
  c.isDigit || ('a' ≤ c && c ≤ 'f') || ('A' ≤ c && c ≤ 'F')

/-- Approximation of CPython `_check_bracketed_host`: an IPvFuture literal
`v<hex>+.<anything nonempty>` is accepted; otherwise the content must look
like an IPv6 literal (contains `:`, hex/`:`/`.`/`%` characters only) --
`ipaddress.ip_address` is approximated, and a bracketed IPv4 address is
rejected as CPython does. -/
def checkBracketedHost (h : CL) : Bool :=
  match h with
  | 'v' :: rest =>
    let hexpart := rest.takeWhile isHexDigit
    !hexpart.isEmpty &&
      (match rest.drop hexpart.length with
       | '.' :: tail => !tail.isEmpty
       | _ => false)
  | _ => h.contains ':' && h.all fun c => isHexDigit c || c = ':' || c = '.' || c = '%'

/-- Part of the netloc after the last `@` (CPython `netloc.rpartition('@')[2]`). -/
def afterLastAt (l : CL) : CL := (l.reverse.takeWhile (fun c => c ≠ '@')).reverse

/-- Everything after the first occurrence of `c` (empty if absent). -/
def afterFirstChar (c : Char) (l : CL) : CL := (l.dropWhile (fun a => a ≠ c)).drop 1

/-- CPython `_hostinfo`: hostname from a netloc. -/
def hostFromNetloc (netloc : CL) : CL :=
  let hostinfo := afterLastAt netloc
  if hostinfo.contains '[' then
    (afterFirstChar '[' hostinfo).takeWhile (fun c => c ≠ ']')
  else
    hostinfo.takeWhile (fun c => c ≠ ':')

/-- `urllib.parse.urlparse(url).hostname or ""`, with `none` for a raised
`ValueError`.  An absent netloc yields `some ""` (Python `hostname` is `None`
there, and the caller substitutes `""`). -/
def urlHostname (url : String) : Option String :=
  let u := preprocessUrl url.data
  let r := (splitScheme u).2
  if (['/', '/'] : CL).isPrefixOf r then
    let netloc := (r.drop 2).takeWhile fun c => !isNetlocEnd c
    if netloc.contains '[' != netloc.contains ']' then none
    else if netloc.contains '[' then
      let bracketed := (afterFirstChar '[' netloc).takeWhile fun c => c ≠ ']'
      if checkBracketedHost bracketed then
        some (String.mk ((hostFromNetloc netloc).map Char.toLower))
      else none
    else some (String.mk ((hostFromNetloc netloc).map Char.toLower))
  else some ""

/-- `_ALLOWED_DOMAINS` (`main.py` 47–58). -/
def _ALLOWED_DOMAINS : List String :=
  ["bilibili.com", "b23.tv", "bilivideo.com", "bilivideo.cn", "bilivideo.net",
   "hdslb.com", "bili2233.cn", "bili22.cn", "bili23.cn", "bili33.cn"]

/-- Strip all trailing `'.'` characters (Python `str.rstrip(".")`). -/
def rstripDots (l : CL) : CL := (l.reverse.dropWhile (fun c => c = '.')).reverse

/-- `_is_allowed_domain` (`main.py` 61–72): parse the URL, take the hostname
(or `""`), lower-case, strip trailing dots, and accept an exact or
dot-suffixed match against the allow list.  A `ValueError` from `urlparse`
(modelled by `urlHostname = none`) is caught and yields `false`. -/
def _is_allowed_domain (url : String) : Bool :=
  match urlHostname url with
  | none => false
  | some h0 =>
    let host := rstripDots (h0.data.map Char.toLower)
    _ALLOWED_DOMAINS.any fun domain =>
      host == domain.data || List.isSuffixOf ('.' :: domain.data) host

/-! ### Image classification (`main.py` 42–44, 170–179) -/

/-- Python values as they occur in `raw_message` payloads: JSON-shaped data
plus a catch-all `jother` for any other Python object (carrying only its
truthiness, which is all the extractor can observe of it).  `None` is
`jnull`; JSON numbers are modelled as integers. -/
inductive JVal where
  | jnull
  | jbool (b : Bool)
  | jint (n : Int)
  | jstr (s : String)
  | jarr (elems : List JVal)
  | jobj (fields : List (String × JVal))
  | jother (truthy : Bool)

/-- Python truthiness of a `JVal`. -/
def pyTruthy : JVal → Bool
  | JVal.jnull => false
  | JVal.jbool b => b
  | JVal.jint n => n != 0
  | JVal.jstr s => s != ""
  | JVal.jarr elems => !elems.isEmpty
  | JVal.jobj fields => !fields.isEmpty
  | JVal.jother t => t

/-- Dict lookup (`dict.get`); keys of a Python dict are unique, so the first
match is the only one. -/
def jget : List (String × JVal) → String → Option JVal
  | [], _ => none
  | (k, v) :: rest, key => if k = key then some v else jget rest key

/-- `val.get("qqdocurl", "") or val.get("url", "")` (`main.py` 82). -/
def qqdocCandidate (vf : List (String × JVal)) : JVal :=
  let a := (jget vf "qqdocurl").getD (JVal.jstr "")
  if pyTruthy a then a else (jget vf "url").getD (JVal.jstr "")

/-- `if url and _is_allowed_domain(url)` (`main.py` 83): a non-string truthy
candidate makes `urlparse` raise inside `_is_allowed_domain`, which catches
the exception and returns `False`, so only truthy strings can pass. -/
def urlHit : JVal → Bool
  | JVal.jstr s => s != "" && _is_allowed_domain s
  | _ => false

/-- Loop body of `_find_qqdocurl` (`main.py` 80–84). -/
def _find_qqdocurl_loop : List (String × JVal) → String
  | [] => ""
  | (_, v) :: rest =>
    match v with
    | JVal.jobj vf =>
      let url := qqdocCandidate vf
      if urlHit url then
        match url with
        | JVal.jstr s => s
        | _ => _find_qqdocurl_loop rest
      else _find_qqdocurl_loop rest
    | _ => _find_qqdocurl_loop rest

/-- `_find_qqdocurl` (`main.py` 75–85). -/
def _find_qqdocurl (data : List (String × JVal)) : String :=
  match jget data "meta" with
  | some (JVal.jobj metaFields) => _find_qqdocurl_loop metaFields
  | _ => ""

/-- `_try_parse_json` (`main.py` 88–96), parameterised by the behaviour of
`json.loads` (`pj text = none` models a raised `JSONDecodeError`/`TypeError`). -/
def _try_parse_json (pj : String → Option JVal) (text : String) : String :=
  match pj text with
  | some (JVal.jobj d) => _find_qqdocurl d
  | _ => ""

/-- Python `str.strip()` whitespace (ASCII fragment; exotic Unicode spaces are
not modelled). -/
def isPySpace (c : Char) : Bool :=
  c = ' ' || c = '\t' || c = '\n' || c = '\r' || c = '\x0b' || c = '\x0c'

def pyStrip (s : String) : String :=
  String.mk (((s.data.dropWhile isPySpace).reverse.dropWhile isPySpace).reverse)

/-- The CQ marker `[CQ:json,data=` as characters. -/
def cqMarker : CL :=
  ['[', 'C', 'Q', ':', 'j', 's', 'o', 'n', ',', 'd', 'a', 't', 'a', '=']

/-- Remainder after the first occurrence of `pat` (`none` when absent). -/
def afterFirstSub (pat : CL) : CL → Option CL
  | [] => none
  | c :: t => if pat.isPrefixOf (c :: t) then some ((c :: t).drop pat.length)
              else afterFirstSub pat t

/-- The capture of `re.search(r'\[CQ:json,data=(.*?)\]', s, re.S)`: the text
between the first occurrence of the marker and the first `]` after it.  The
lazy group extends to the first `]`; if no `]` follows the first marker
occurrence then none follows any later occurrence either, so there is no
match at all. -/
def cqCapture (s : CL) : Option CL :=
  match afterFirstSub cqMarker s with
  | none => none
  | some rest => if rest.contains ']' then some (rest.takeWhile fun c => c ≠ ']') else none

/-- `raw.get("type") == "json"`: only a string value can compare equal. -/
def typeIsJson (d : List (String × JVal)) : Bool :=
  match jget d "type" with
  | some (JVal.jstr s) => s = "json"
  | _ => false


/-- Apply `_try_parse_json` when the value is a string (Python
`isinstance(json_str, str)` guard); otherwise "not found". -/
def parseIfStr (pj : String → Option JVal) : JVal → String
  | JVal.jstr js => _try_parse_json pj js
  | _ => ""

/-- URL extracted from one OneBot segment (`main.py` 128–141): a dict of
`type == "json"` whose `data` field is either a dict with a string `data`
entry or itself a string. -/
def segUrl (pj : String → Option JVal) : JVal → String
  | JVal.jobj d =>
    if typeIsJson d then
      match (jget d "data").getD (JVal.jobj []) with
      | JVal.jobj innerf => parseIfStr pj ((jget innerf "data").getD (JVal.jstr ""))
      | JVal.jstr innerStr => _try_parse_json pj innerStr
      | _ => ""
    else ""
  | _ => ""

/-- `_extract_from_raw_message`, list-of-segments loop (`main.py` 126–141). -/
def _extract_segments (pj : String → Option JVal) : List JVal → String
  | [] => ""
  | seg :: rest =>
    let url := segUrl pj seg
    if url ≠ "" then url else _extract_segments pj rest

/-- Inner-card parse of the dict branch (`main.py` 116–123): unlike the list
loop, a string-valued `data` field is not handled here. -/
def dictJsonUrl (pj : String → Option JVal) (d : List (String × JVal)) : String :=
  if typeIsJson d then
    match (jget d "data").getD (JVal.jobj []) with
    | JVal.jobj innerf => parseIfStr pj ((jget innerf "data").getD (JVal.jstr ""))
    | _ => ""
  else ""

/-- `_extract_from_raw_message` (`main.py` 99–167).  `raw = None` is
`JVal.jnull`; a payload of any other Python type is `jother`, which matches
none of the `isinstance` branches and falls through to `""`.  The three
`isinstance` sections of the Python function are sequential `if`s; a dict or
list that produces nothing falls through the remaining sections unmatched, so
the translation below returns `""` directly in those cases. -/
def _extract_from_raw_message (pj : String → Option JVal) (raw : JVal) : String :=
  match raw with
  | JVal.jobj d =>
    let url := _find_qqdocurl d
    if url ≠ "" then url else dictJsonUrl pj d
  | JVal.jarr segs => _extract_segments pj segs
  | JVal.jstr s =>
    let rawStr := pyStrip s
    let fromJson :=
      if rawStr.data.head? = some '{' then _try_parse_json pj rawStr else ""
    if fromJson ≠ "" then fromJson
    else
      match cqCapture rawStr.data with
      | some payload => _try_parse_json pj (String.mk (cqUnescape payload))
      | none => ""
  | _ => ""

theorem find_loop_safe (l : List (String × JVal)) :
    _find_qqdocurl_loop l = "" ∨ _is_allowed_domain (_find_qqdocurl_loop l) = true := by
  induction l with
  | nil => left; rfl
  | cons kv rest ih =>
    obtain ⟨k, v⟩ := kv
    cases v with
    | jobj vf =>
      simp only [_find_qqdocurl_loop]
      by_cases hhit : urlHit (qqdocCandidate vf) = true
      · rw [if_pos hhit]
        cases hurl : qqdocCandidate vf with
        | jstr s =>
          right
          rw [hurl] at hhit
          simp only [urlHit, Bool.and_eq_true] at hhit
          exact hhit.2
        | jnull => rw [hurl] at hhit; simp [urlHit] at hhit
        | jbool b => rw [hurl] at hhit; simp [urlHit] at hhit
        | jint n => rw [hurl] at hhit; simp [urlHit] at hhit
        | jarr elems => rw [hurl] at hhit; simp [urlHit] at hhit
        | jobj fields => rw [hurl] at hhit; simp [urlHit] at hhit
        | jother t => rw [hurl] at hhit; simp [urlHit] at hhit
      · rw [if_neg hhit]; exact ih
    | jnull => exact ih
    | jbool b => exact ih
    | jint n => exact ih
    | jstr s => exact ih
    | jarr elems => exact ih
    | jother t => exact ih

theorem find_qqdocurl_safe (d : List (String × JVal)) :
    _find_qqdocurl d = "" ∨ _is_allowed_domain (_find_qqdocurl d) = true := by
  unfold _find_qqdocurl
  cases hm : jget d "meta" with
  | none => left; rfl
  | some v =>
    cases v with
    | jobj mf => exact find_loop_safe mf
    | jnull => left; rfl
    | jbool b => left; rfl
    | jint n => left; rfl
    | jstr s => left; rfl
    | jarr elems => left; rfl
    | jother t => left; rfl

theorem try_parse_safe (pj : String → Option JVal) (text : String) :
    _try_parse_json pj text = "" ∨ _is_allowed_domain (_try_parse_json pj text) = true := by
  unfold _try_parse_json
  cases hp : pj text with
  | none => left; rfl
  | some v =>
    cases v with
    | jobj d => exact find_qqdocurl_safe d
    | jnull => left; rfl
    | jbool b => left; rfl
    | jint n => left; rfl
    | jstr s => left; rfl
    | jarr elems => left; rfl
    | jother t => left; rfl

theorem parseIfStr_safe (pj : String → Option JVal) (v : JVal) :
    parseIfStr pj v = "" ∨ _is_allowed_domain (parseIfStr pj v) = true := by
  cases v with
  | jstr js => exact try_parse_safe pj js
  | jnull => left; rfl
  | jbool b => left; rfl
  | jint n => left; rfl
  | jarr elems => left; rfl
  | jobj fields => left; rfl
  | jother t => left; rfl

theorem segUrl_safe (pj : String → Option JVal) (seg : JVal) :
    segUrl pj seg = "" ∨ _is_allowed_domain (segUrl pj seg) = true := by
  cases seg with
  | jobj d =>
    simp only [segUrl]
    by_cases htype : typeIsJson d = true
    · rw [if_pos htype]
      cases hinner : (jget d "data").getD (JVal.jobj []) with
      | jobj innerf => exact parseIfStr_safe pj _
      | jstr innerStr => exact try_parse_safe pj innerStr
      | jnull => left; rfl
      | jbool b => left; rfl
      | jint n => left; rfl
      | jarr elems => left; rfl
      | jother t => left; rfl
    · rw [if_neg htype]; left; rfl
  | jnull => left; rfl
  | jbool b => left; rfl
  | jint n => left; rfl
  | jstr s => left; rfl
  | jarr elems => left; rfl
  | jother t => left; rfl

theorem extract_segments_safe (pj : String → Option JVal) (segs : List JVal) :
    _extract_segments pj segs = "" ∨
      _is_allowed_domain (_extract_segments pj segs) = true := by
  induction segs with
  | nil => left; rfl
  | cons seg rest ih =>
    simp only [_extract_segments]
    by_cases hurl : segUrl pj seg ≠ ""
    · rw [if_pos hurl]
      rcases segUrl_safe pj seg with h | h
      · exact absurd h hurl
      · right; exact h
    · rw [if_neg hurl]; exact ih

theorem dictJsonUrl_safe (pj : String → Option JVal) (d : List (String × JVal)) :
    dictJsonUrl pj d = "" ∨ _is_allowed_domain (dictJsonUrl pj d) = true := by
  unfold dictJsonUrl
  by_cases htype : typeIsJson d = true
  · rw [if_pos htype]
    cases hinner : (jget d "data").getD (JVal.jobj []) with
    | jobj innerf => exact parseIfStr_safe pj _
    | jnull => left; rfl
    | jbool b => left; rfl
    | jint n => left; rfl
    | jstr s => left; rfl
    | jarr elems => left; rfl
    | jother t => left; rfl
  · rw [if_neg htype]; left; rfl

/-- Claim C1: for every behaviour of the JSON parser and every payload shape
(`None`, dict, list, string, or any other Python value), the extraction
function — a total Lean function, hence terminating and exception-free —
returns either `""` ("not found") or a URL accepted by the domain
validator. -/
theorem extract_from_raw_message_safe (pj : String → Option JVal) (raw : JVal) :
    _extract_from_raw_message pj raw = "" ∨
      _is_allowed_domain (_extract_from_raw_message pj raw) = true := by
  cases raw with
  | jobj d =>
    simp only [_extract_from_raw_message]
    by_cases hfind : _find_qqdocurl d ≠ ""
    · rw [if_pos hfind]
      rcases find_qqdocurl_safe d with h | h
      · exact absurd h hfind
      · right; exact h
    · rw [if_neg hfind]; exact dictJsonUrl_safe pj d
  | jarr segs => exact extract_segments_safe pj segs
  | jstr s =>
    simp only [_extract_from_raw_message]
    by_cases hj : (if (pyStrip s).data.head? = some '{' then _try_parse_json pj (pyStrip s) else "") ≠ ""
    · rw [if_pos hj]
      by_cases hh : (pyStrip s).data.head? = some '{'
      · rw [if_pos hh] at hj ⊢
        rcases try_parse_safe pj (pyStrip s) with h | h
        · exact absurd h hj
        · right; exact h
      · rw [if_neg hh] at hj
        exact absurd rfl hj
    · rw [if_neg hj]
      cases hcq : cqCapture (pyStrip s).data with
      | none => left; rfl
      | some payload => exact try_parse_safe pj (String.mk (cqUnescape payload))
  | jnull => left; rfl
  | jbool b => left; rfl
  | jint n => left; rfl
  | jother t => left; rfl

/-- Claim C2: a URL is accepted by `_is_allowed_domain` iff its parsed
hostname — lower-cased with trailing dots stripped — equals an allow-list
entry or is a dotted subdomain of one (a failed parse, `urlHostname = none`,
and a missing hostname, `some ""`, are rejected since they match no entry);
concretely, `api.bilibili.com` and `b23.tv` URLs are accepted while the
lookalikes `bilibili.com.evil.tld` and `notbilibili.com`, a scheme-less
`bilibili.com` (no hostname), and the unparsable `http://[::1/x` are all
rejected. -/
theorem allowed_domain_characterisation :
    (∀ url : String, _is_allowed_domain url = true ↔
      ∃ domain ∈ _ALLOWED_DOMAINS, ∃ h : String, urlHostname url = some h ∧
        (rstripDots (h.data.map Char.toLower) = domain.data ∨
         ∃ pre : CL, rstripDots (h.data.map Char.toLower) = pre ++ '.' :: domain.data)) ∧
    _is_allowed_domain "https://api.bilibili.com/x/web-interface/nav" = true ∧
    _is_allowed_domain "https://b23.tv/abc" = true ∧
    _is_allowed_domain "https://bilibili.com.evil.tld/a" = false ∧
    _is_allowed_domain "https://notbilibili.com/" = false ∧
    _is_allowed_domain "bilibili.com" = false ∧
    _is_allowed_domain "http://[::1/x" = false := by
  refine ⟨fun url => ?_, by decide, by decide, by decide, by decide, by decide, by decide⟩
  unfold _is_allowed_domain
  cases hu : urlHostname url with
  | none =>
    constructor
    · intro hcon; simp at hcon
    · rintro ⟨domain, _, h, hcon, -⟩
      exact Option.noConfusion hcon
  | some h0 =>
    simp only [List.any_eq_true, Bool.or_eq_true, beq_iff_eq]
    constructor
    · rintro ⟨domain, hdom, hmatch | hsuf⟩
      · exact ⟨domain, hdom, h0, rfl, Or.inl hmatch⟩
      · refine ⟨domain, hdom, h0, rfl, Or.inr ?_⟩
        rcases (List.isSuffixOf_iff_suffix).mp hsuf with ⟨pre, hpre⟩
        exact ⟨pre, hpre.symm⟩
    · rintro ⟨domain, hdom, h, hh, hcase⟩
      obtain rfl : h = h0 := (Option.some.inj hh).symm
      rcases hcase with hmatch | ⟨pre, hpre⟩
      · exact ⟨domain, hdom, Or.inl hmatch⟩
      · refine ⟨domain, hdom, Or.inr ?_⟩
        exact (List.isSuffixOf_iff_suffix).mpr ⟨pre, hpre.symm⟩

/-- String-level CQ escape (modelled from the spec, §6). -/
def cqEscapeS (s : String) : String := String.mk (cqEscape s.data)

/-- String-level CQ unescape in the repository's decode order
(`main.py` 156–162). -/
def cqUnescapeS (s : String) : String := String.mk (cqUnescape s.data)

/-- Claim C3 counterexample: the payload `"&#44;"` (a literal comma escape
sequence) does not survive the round trip — encoding yields `"&amp;#44;"`,
and decoding `&amp;` first turns it into `"&#44;"`, which the subsequent
`&#44;` pass then collapses to `","`. -/
theorem cq_roundtrip_counterexample :
    cqUnescapeS (cqEscapeS "&#44;") = "," ∧ ("," : String) ≠ "&#44;" := by decide

/-- Claim C3 (amended): encoding with the four CQ escapes and then decoding
in the repository's order (`&amp;` first, then `&#44;`, `&#91;`, `&#93;`)
reproduces the original payload exactly, for every payload that does not
already contain one of the literal escape sequences `&#44;`, `&#91;`,
`&#93;`; in particular a literal `&` immediately followed by `amp;` is
preserved.  Payloads containing a literal bracket/comma escape sequence are
corrupted, as the counterexample shows. -/
theorem cq_roundtrip_of_no_literal_escapes (s : String)
    (h44 : occurs c44 s.data = false) (h91 : occurs c91 s.data = false)
    (h93 : occurs c93 s.data = false) :
    cqUnescapeS (cqEscapeS s) = s := by
  unfold cqUnescapeS cqEscapeS
  have : (String.mk (cqEscape s.data)).data = cqEscape s.data := rfl
  rw [this, cq_roundtrip s.data h44 h91 h93]

/-- Witness for the amended C3 theorem on the payload `"a&amp;b, [x]"`
(which contains a literal `&` followed by `amp;`, plus a comma and
brackets). -/
theorem cq_roundtrip_witness :
    (occurs c44 "a&amp;b, [x]".data = false ∧
     occurs c91 "a&amp;b, [x]".data = false ∧
     occurs c93 "a&amp;b, [x]".data = false) ∧
    cqUnescapeS (cqEscapeS "a&amp;b, [x]") = "a&amp;b, [x]" :=
  ⟨⟨by decide, by decide, by decide⟩,
   cq_roundtrip_of_no_literal_escapes "a&amp;b, [x]" (by decide) (by decide) (by decide)⟩

/-! ### Message-chain formatter (`main.py` 182–214) -/

/-- `MIXIN_KEY_ENC_TAB` (`wbi.py` 12–17). -/
def MIXIN_KEY_ENC_TAB : List Nat :=
  [46, 47, 18, 2, 53, 8, 23, 32, 15, 50, 10, 31, 58, 3, 45, 35, 27, 43, 5, 49,
   33, 9, 42, 19, 29, 28, 14, 39, 12, 38, 41, 13, 37, 48, 7, 16, 24, 55, 40,
   61, 26, 17, 0, 1, 60, 51, 30, 4, 22, 25, 54, 21, 56, 59, 6, 63, 57, 62, 11,
   36, 20, 34, 44, 52]

/-- `get_mixin_key` (`wbi.py` 31–33): permute `orig` through the table and
keep the first 32 characters.  Python's `orig[i]` raises `IndexError` when
`orig` is shorter than 64 characters; out-of-range indices are modelled with
a default character and never arise for the 64-character inputs the claims
are about. -/
def get_mixin_key (orig : String) : String :=
  String.mk ((MIXIN_KEY_ENC_TAB.map fun i => orig.data.getD i ' ').take 32)

/-- Parameter values passed to `enc_wbi` (strings or integers; `str(v)` is
applied to every value before encoding). -/
inductive WVal where
  | wstr (s : String)
  | wint (n : Int)
deriving DecidableEq

/-- Python `str(v)` for the modelled value types. -/
def pyStr : WVal → String
  | WVal.wstr s => s
  | WVal.wint n => toString n

/-- The characters `!'()*` filtered out of values (`wbi.py` 42–46). -/
def badChars : CL := ['!', Char.ofNat 39, '(', ')', '*']

def stripBad (s : String) : String :=
  String.mk (s.data.filter fun c => !badChars.contains c)

/-- Python dict assignment `d[k] = v`: update in place when the key exists,
append otherwise. -/
def dictSet {α : Type} : List (String × α) → String → α → List (String × α)
  | [], k, v => [(k, v)]
  | (k', v') :: t, k, v =>
    if k' = k then (k', v) :: t else (k', v') :: dictSet t k v

/-- Code-point lexicographic comparison of character lists — the order Python
uses to compare `str` keys in `sorted(params.items())`.  (With unique dict
keys the tuple comparison never reaches the values.) -/
def clLe : CL → CL → Bool
  | [], _ => true
  | _ :: _, [] => false
  | a :: as, b :: bs =>
    if a.toNat < b.toNat then true
    else if b.toNat < a.toNat then false
    else clLe as bs

def keyLe {α : Type} (x y : String × α) : Bool := clLe x.1.data y.1.data

/-- Stable insertion into a key-sorted association list. -/
def insByKey {α : Type} (x : String × α) : List (String × α) → List (String × α)
  | [] => [x]
  | y :: ys => if keyLe x y then x :: y :: ys else y :: insByKey x ys

/-- `dict(sorted(params.items()))` (`wbi.py` 41): stable sort by key. -/
def sortByKey {α : Type} : List (String × α) → List (String × α)
  | [] => []
  | x :: xs => insByKey x (sortByKey xs)

/-- UTF-8 encoding of one character (as byte values). -/
def utf8Bytes (c : Char) : List Nat :=
  let n := c.toNat
  if n < 0x80 then [n]
  else if n < 0x800 then [0xC0 + n / 64, 0x80 + n % 64]
  else if n < 0x10000 then
    [0xE0 + n / 4096, 0x80 + (n / 64) % 64, 0x80 + n % 64]
  else
    [0xF0 + n / 262144, 0x80 + (n / 4096) % 64, 0x80 + (n / 64) % 64, 0x80 + n % 64]

def hexUpper (n : Nat) : Char :=
  if n < 10 then Char.ofNat (48 + n) else Char.ofNat (55 + n)

def pctByte (b : Nat) : CL := ['%', hexUpper (b / 16), hexUpper (b % 16)]

/-- Characters `urllib.parse.quote_plus` leaves unencoded (`always_safe`). -/
def alwaysSafe (c : Char) : Bool :=
  c.isAlpha || c.isDigit || c = '_' || c = '.' || c = '-' || c = '~'

def quotePlusChar (c : Char) : CL :=
  if c = ' ' then ['+']
  else if alwaysSafe c then [c]
  else (utf8Bytes c).map pctByte |>.flatten

/-- `urllib.parse.quote_plus` with default safe set. -/
def quote_plus (s : String) : String := String.mk (cm quotePlusChar s.data)

def joinAmp : List String → String
  | [] => ""
  | [x] => x
  | x :: t => x ++ "&" ++ joinAmp t

/-- `urllib.parse.urlencode` on string-valued parameters (`wbi.py` 47, 98). -/
def urlencode (l : List (String × String)) : String :=
  joinAmp (l.map fun kv => quote_plus kv.1 ++ "=" ++ quote_plus kv.2)

/-- One strip-map entry: `str(v)` then filter `!'()*`. -/
def stripEntry (kv : String × WVal) : String × String := (kv.1, stripBad (pyStr kv.2))

/-- `enc_wbi` (`wbi.py` 36–50), with `time.time()` passed in as `curr_time`
(Python `round` of a float, hence an integer) and the MD5 hex digest
abstracted as `md5hex`.  The first component is the returned signed parameter
dict, the second is the caller's dict after the call — Python mutates the
caller's dict in place with `params["wts"] = curr_time` (line 40) and then
rebinds the local name, so the sort, the filtering and `w_rid` affect only
the fresh dict that is returned. -/
def enc_wbi_full (params : List (String × WVal)) (img_key sub_key : String)
    (curr_time : Int) (md5hex : String → String) :
    List (String × String) × List (String × WVal) :=
  let mixin_key := get_mixin_key (img_key ++ sub_key)
  let mutated := dictSet params "wts" (WVal.wint curr_time)
  let sortedP := sortByKey mutated
  let stripped := sortedP.map stripEntry
  let query := urlencode stripped
  let wbi_sign := md5hex (query ++ mixin_key)
  (dictSet stripped "w_rid" wbi_sign, mutated)

/-- The signed parameter dict returned by `enc_wbi`. -/
def enc_wbi (params : List (String × WVal)) (img_key sub_key : String)
    (curr_time : Int) (md5hex : String → String) : List (String × String) :=
  (enc_wbi_full params img_key sub_key curr_time md5hex).1

/-- The final query string produced by `get_query` (`wbi.py` 91–99) once the
keys are known: `urlencode` of the signed parameters. -/
def get_query_signed (params : List (String × WVal)) (img_key sub_key : String)
    (curr_time : Int) (md5hex : String → String) : String :=
  urlencode (enc_wbi params img_key sub_key curr_time md5hex)

/-- `_WBI_KEY_TTL = 30 * 60` seconds (`wbi.py` 28). -/
def _WBI_KEY_TTL : Int := 30 * 60

/-- The module-level cache `_wbi_key_cache` (`wbi.py` 27):
`(img_key, sub_key, fetched_at)` or empty. -/
structure WbiCache where
  cache : Option (String × String × Int)
deriving DecidableEq

/-- Outcome of the single HTTP GET to the nav endpoint: a raised transport or
timeout error (which also covers a response body that is not valid JSON, as
`resp.json()` raises there), or a response with a status and parsed body. -/
inductive FetchOutcome where
  | transportError
  | response (status : Nat) (body : JVal)

/-- Errors `get_wbi_keys` propagates: the `RuntimeError` raised for a non-200
status (`wbi.py` 73–76), a transport error, and the `KeyError` /
`AttributeError` / `IndexError` raised while digging the key URLs out of a
malformed nav response (`wbi.py` 82–85). -/
inductive WbiError where
  | httpStatus (status : Nat)
  | transport
  | badResponse
deriving DecidableEq

/-- `u.rsplit("/", 1)[1].split(".")[0]` (`wbi.py` 84–85): the segment after
the last `/`, truncated at its first `.`; `none` when `u` has no `/` (where
Python raises `IndexError`). -/
def keyFromUrl (u : String) : Option String :=
  if u.data.contains '/' then
    some (String.mk (((u.data.reverse.takeWhile fun c => c ≠ '/').reverse).takeWhile
      fun c => c ≠ '.'))
  else none

/-- `json_content["data"]["wbi_img"]["img_url"/"sub_url"]` followed by the key
extraction; `none` models any exception on that path (missing keys, non-dict
intermediates, non-string URLs, URLs without a slash). -/
def extractWbiKeys (j : JVal) : Option (String × String) :=
  match j with
  | JVal.jobj top =>
    match jget top "data" with
    | some (JVal.jobj d) =>
      match jget d "wbi_img" with
      | some (JVal.jobj w) =>
        match jget w "img_url", jget w "sub_url" with
        | some (JVal.jstr iu), some (JVal.jstr su) =>
          match keyFromUrl iu, keyFromUrl su with
          | some ik, some sk => some (ik, sk)
          | _, _ => none
        | _, _ => none
      | _ => none
    | _ => none
  | _ => none

/-- The fetch path of `get_wbi_keys` (`wbi.py` 65–88).  Returns the result,
the cache after the call, and the number of fetches performed (always 1
here). -/
def wbiFetch (st : WbiCache) (now : Int) (fetch : FetchOutcome) :
    Except WbiError (String × String) × WbiCache × Nat :=
  match fetch with
  | FetchOutcome.transportError => (Except.error WbiError.transport, st, 1)
  | FetchOutcome.response status body =>
    if status ≠ 200 then (Except.error (WbiError.httpStatus status), st, 1)
    else
      match extractWbiKeys body with
      | none => (Except.error WbiError.badResponse, st, 1)
      | some (ik, sk) => (Except.ok (ik, sk), ⟨some (ik, sk, now)⟩, 1)

/-- `get_wbi_keys` (`wbi.py` 53–88): serve from the cache when the entry is
younger than the TTL, otherwise perform exactly one fetch; on success the
cache is replaced wholesale with `(img_key, sub_key, now)`. -/
def get_wbi_keys (st : WbiCache) (now : Int) (fetch : FetchOutcome) :
    Except WbiError (String × String) × WbiCache × Nat :=
  match st.cache with
  | some (img_key, sub_key, cached_at) =>
    if now - cached_at < _WBI_KEY_TTL then (Except.ok (img_key, sub_key), st, 0)
    else wbiFetch st now fetch
  | none => wbiFetch st now fetch

/-- Claim C6: on a 64-character input, `get_mixin_key` returns exactly the
32-character string whose `i`-th character is the input character at index
`MIXIN_KEY_ENC_TAB[i]`, and the table is a fixed permutation of 64 indices in
`0…63`. -/
theorem get_mixin_key_spec (orig : String) (_horig : orig.length = 64) :
    (get_mixin_key orig).length = 32 ∧
    (∀ i, i < 32 →
      (get_mixin_key orig).data.getD i ' ' =
        orig.data.getD (MIXIN_KEY_ENC_TAB.getD i 0) ' ') ∧
    MIXIN_KEY_ENC_TAB.length = 64 ∧
    MIXIN_KEY_ENC_TAB.Nodup ∧
    (∀ x ∈ MIXIN_KEY_ENC_TAB, x ≤ 63) := by
  refine ⟨?_, ?_, by decide, by decide, by decide⟩
  · show ((MIXIN_KEY_ENC_TAB.map fun i => orig.data.getD i ' ').take 32).length = 32
    rw [List.length_take, List.length_map]
    decide
  · intro i hi
    show ((MIXIN_KEY_ENC_TAB.map fun i => orig.data.getD i ' ').take 32).getD i ' ' = _
    have hlen : i < (MIXIN_KEY_ENC_TAB.map fun i => orig.data.getD i ' ').length := by
      rw [List.length_map]
      have : MIXIN_KEY_ENC_TAB.length = 64 := by decide
      omega
    rw [List.getD_eq_getElem?_getD, List.getElem?_take_of_lt hi,
      List.getElem?_map]
    have htab : i < MIXIN_KEY_ENC_TAB.length := by
      have : MIXIN_KEY_ENC_TAB.length = 64 := by decide
      omega
    rw [List.getElem?_eq_getElem htab]
    simp only [Option.map_some', Option.getD_some]
    have h2 : MIXIN_KEY_ENC_TAB.getD i 0 = MIXIN_KEY_ENC_TAB[i] := by
      rw [List.getD_eq_getElem?_getD, List.getElem?_eq_getElem htab]
      rfl
    rw [h2]

/-- Witness for C6 at a concrete 64-character key pair. -/
theorem get_mixin_key_spec_witness :
    ("0123456789abcdefghijklmnopqrstuvABCDEFGHIJKLMNOPQRSTUVWXYZ=-0123" : String).length = 64 ∧
    (get_mixin_key "0123456789abcdefghijklmnopqrstuvABCDEFGHIJKLMNOPQRSTUVWXYZ=-0123").length = 32 :=
  ⟨by decide,
   (get_mixin_key_spec "0123456789abcdefghijklmnopqrstuvABCDEFGHIJKLMNOPQRSTUVWXYZ=-0123"
     (by decide)).1⟩

theorem wbiFetch_count (st : WbiCache) (now : Int) (fetch : FetchOutcome) :
    (wbiFetch st now fetch).2.2 = 1 := by
  cases fetch with
  | transportError => rfl
  | response status body =>
    simp only [wbiFetch]
    by_cases hs : status ≠ 200
    · rw [if_pos hs]
    · rw [if_neg hs]
      cases hx : extractWbiKeys body with
      | none => rfl
      | some ks => obtain ⟨ik, sk⟩ := ks; rfl

theorem wbiFetch_ok_cache (st : WbiCache) (now : Int) (fetch : FetchOutcome)
    (ik sk : String) (hok : (wbiFetch st now fetch).1 = Except.ok (ik, sk)) :
    (wbiFetch st now fetch).2.1.cache = some (ik, sk, now) := by
  cases fetch with
  | transportError => exact absurd hok (by simp [wbiFetch])
  | response status body =>
    simp only [wbiFetch] at hok ⊢
    by_cases hs : status ≠ 200
    · rw [if_pos hs] at hok
      exact absurd hok (by simp)
    · rw [if_neg hs] at hok ⊢
      cases hx : extractWbiKeys body with
      | none =>
        rw [hx] at hok
        exact absurd hok (by simp)
      | some ks =>
        obtain ⟨ik', sk'⟩ := ks
        rw [hx] at hok
        have hok2 : (Except.ok (ik', sk') : Except WbiError (String × String)) =
            Except.ok (ik, sk) := hok
        obtain ⟨rfl, rfl⟩ : ik' = ik ∧ sk' = sk := by
          injection hok2 with h
          exact ⟨congrArg Prod.fst h, congrArg Prod.snd h⟩
        rfl

/-- Claim C7: a read of the WBI key cache is served without a fetch exactly
when the cached entry is strictly younger than 30 minutes (and then the
cached pair is returned and the state is untouched); an empty or expired
cache triggers exactly one fetch, and a successful fetch replaces the entry
wholesale with the `(img_key, sub_key, now)` tuple. -/
theorem get_wbi_keys_cache_discipline (st : WbiCache) (now : Int) (fetch : FetchOutcome) :
    ((get_wbi_keys st now fetch).2.2 = 0 ↔
      ∃ ik sk t, st.cache = some (ik, sk, t) ∧ now - t < _WBI_KEY_TTL) ∧
    ((get_wbi_keys st now fetch).2.2 = 0 →
      (get_wbi_keys st now fetch).2.1 = st ∧
      ∃ ik sk t, st.cache = some (ik, sk, t) ∧
        (get_wbi_keys st now fetch).1 = Except.ok (ik, sk)) ∧
    ((get_wbi_keys st now fetch).2.2 = 0 ∨ (get_wbi_keys st now fetch).2.2 = 1) ∧
    (∀ ik sk, (get_wbi_keys st now fetch).1 = Except.ok (ik, sk) →
      (get_wbi_keys st now fetch).2.2 = 1 →
      (get_wbi_keys st now fetch).2.1.cache = some (ik, sk, now)) := by
  obtain ⟨c⟩ := st
  cases c with
  | none =>
    have hred : get_wbi_keys ⟨none⟩ now fetch = wbiFetch ⟨none⟩ now fetch := rfl
    rw [hred]
    refine ⟨?_, ?_, Or.inr (wbiFetch_count _ _ _), ?_⟩
    · constructor
      · intro h0
        rw [wbiFetch_count] at h0
        exact absurd h0 one_ne_zero
      · rintro ⟨ik, sk, t, hcon, -⟩
        exact Option.noConfusion hcon
    · intro h0
      rw [wbiFetch_count] at h0
      exact absurd h0 one_ne_zero
    · intro ik sk hok _
      exact wbiFetch_ok_cache _ _ _ _ _ hok
  | some e =>
    obtain ⟨ik0, sk0, t0⟩ := e
    by_cases hfresh : now - t0 < _WBI_KEY_TTL
    · have hred : get_wbi_keys ⟨some (ik0, sk0, t0)⟩ now fetch =
          (Except.ok (ik0, sk0), ⟨some (ik0, sk0, t0)⟩, 0) := by
        simp only [get_wbi_keys]
        rw [if_pos hfresh]
      rw [hred]
      refine ⟨?_, ?_, Or.inl rfl, ?_⟩
      · simp only [true_iff]
        exact ⟨ik0, sk0, t0, rfl, hfresh⟩
      · intro _
        exact ⟨rfl, ik0, sk0, t0, rfl, rfl⟩
      · intro ik sk hok h1
        exact absurd h1 (by simp)
    · have hred : get_wbi_keys ⟨some (ik0, sk0, t0)⟩ now fetch =
          wbiFetch ⟨some (ik0, sk0, t0)⟩ now fetch := by
        simp only [get_wbi_keys]
        rw [if_neg hfresh]
      rw [hred]
      refine ⟨?_, ?_, Or.inr (wbiFetch_count _ _ _), ?_⟩
      · constructor
        · intro h0
          rw [wbiFetch_count] at h0
          exact absurd h0 one_ne_zero
        · rintro ⟨ik, sk, t, hcon, hlt⟩
          simp only [Option.some.injEq, Prod.mk.injEq] at hcon
          obtain ⟨rfl, rfl, rfl⟩ := hcon
          exact absurd hlt hfresh
      · intro h0
        rw [wbiFetch_count] at h0
        exact absurd h0 one_ne_zero
      · intro ik sk hok _
        exact wbiFetch_ok_cache _ _ _ _ _ hok

/-- Witness for C7: an empty cache at time 0 with a well-formed nav response
performs the fetch and stores `("abc123", "def456", 0)`. -/
theorem get_wbi_keys_cache_discipline_witness :
    (get_wbi_keys ⟨none⟩ 0 (FetchOutcome.response 200
      (JVal.jobj [("data", JVal.jobj [("wbi_img", JVal.jobj
        [("img_url", JVal.jstr "https://i0.hdslb.com/bfs/wbi/abc123.png"),
         ("sub_url", JVal.jstr "https://i0.hdslb.com/bfs/wbi/def456.png")])])]))).2.1.cache =
      some ("abc123", "def456", 0) :=
  (get_wbi_keys_cache_discipline ⟨none⟩ 0 _).2.2.2 "abc123" "def456" rfl rfl

/-- The cache is due for refresh: empty, or at least 30 minutes old. -/
def staleOrEmpty (st : WbiCache) (now : Int) : Prop :=
  match st.cache with
  | none => True
  | some (_, _, t) => _WBI_KEY_TTL ≤ now - t

/-- The failure modes of the key fetch named by the spec: a transport or
timeout error, a non-200 status, or a nav response from which the two key
URLs cannot be extracted. -/
def fetchFails : FetchOutcome → Prop
  | FetchOutcome.transportError => True
  | FetchOutcome.response status body => status ≠ 200 ∨ extractWbiKeys body = none

/-- Claim C8: whenever the fetch path runs (empty or stale cache) and the
fetch fails in any of the named ways, `get_wbi_keys` propagates an error to
the caller and leaves the cache entry exactly as it was before the call. -/
theorem get_wbi_keys_error_path (st : WbiCache) (now : Int) (fetch : FetchOutcome)
    (hstale : staleOrEmpty st now) (hfail : fetchFails fetch) :
    (∃ e, (get_wbi_keys st now fetch).1 = Except.error e) ∧
    (get_wbi_keys st now fetch).2.1 = st := by
  have hred : get_wbi_keys st now fetch = wbiFetch st now fetch := by
    obtain ⟨c⟩ := st
    cases c with
    | none => rfl
    | some e =>
      obtain ⟨ik0, sk0, t0⟩ := e
      simp only [get_wbi_keys]
      rw [if_neg (by simp only [staleOrEmpty] at hstale; omega)]
  rw [hred]
  cases fetch with
  | transportError => exact ⟨⟨WbiError.transport, rfl⟩, rfl⟩
  | response status body =>
    simp only [wbiFetch]
    rcases hfail with hs | hx
    · rw [if_pos hs]
      exact ⟨⟨WbiError.httpStatus status, rfl⟩, rfl⟩
    · by_cases hs : status ≠ 200
      · rw [if_pos hs]
        exact ⟨⟨WbiError.httpStatus status, rfl⟩, rfl⟩
      · rw [if_neg hs, hx]
        exact ⟨⟨WbiError.badResponse, rfl⟩, rfl⟩

/-- Witness for C8: empty cache, HTTP 500. -/
theorem get_wbi_keys_error_path_witness :
    (∃ e, (get_wbi_keys ⟨none⟩ 0 (FetchOutcome.response 500 JVal.jnull)).1 =
      Except.error e) ∧
    (get_wbi_keys ⟨none⟩ 0 (FetchOutcome.response 500 JVal.jnull)).2.1 = ⟨none⟩ :=
  get_wbi_keys_error_path ⟨none⟩ 0 (FetchOutcome.response 500 JVal.jnull)
    trivial (Or.inl (by decide))

/-! ### Association-list and sorting lemmas for `enc_wbi` -/

/-- Dict lookup, generic in the value type (`d.get(k)` / `d[k]`). -/
def alookup {α : Type} : List (String × α) → String → Option α
  | [], _ => none
  | (k, v) :: t, key => if k = key then some v else alookup t key

theorem dictSet_notMem {α : Type} (l : List (String × α)) (k : String) (v : α)
    (h : k ∉ l.map Prod.fst) : dictSet l k v = l ++ [(k, v)] := by
  induction l with
  | nil => rfl
  | cons kv t ih =>
    obtain ⟨k', v'⟩ := kv
    have hk : k' ≠ k := by
      intro he
      exact h (by simp [he])
    simp only [dictSet, if_neg hk, List.cons_append]
    rw [ih fun hm => h (by simp [hm])]

theorem mem_keys_dictSet {α : Type} (l : List (String × α)) (k : String) (v : α) (a : String) :
    a ∈ (dictSet l k v).map Prod.fst ↔ a ∈ l.map Prod.fst ∨ a = k := by
  induction l with
  | nil => simp [dictSet]
  | cons kv t ih =>
    obtain ⟨k', v'⟩ := kv
    by_cases hk : k' = k
    · subst hk
      simp only [dictSet, if_pos rfl]
      constructor
      · intro hm
        rcases List.mem_cons.mp hm with h1 | h1
        · exact Or.inl (by simp [h1])
        · exact Or.inl (by simp; right; simpa using h1)
      · rintro (hm | rfl)
        · simpa using hm
        · simp
    · simp only [dictSet, if_neg hk, List.map_cons, List.mem_cons, ih]
      tauto

theorem keys_dictSet_nodup {α : Type} (l : List (String × α)) (k : String) (v : α)
    (h : (l.map Prod.fst).Nodup) : ((dictSet l k v).map Prod.fst).Nodup := by
  induction l with
  | nil => simp [dictSet]
  | cons kv t ih =>
    obtain ⟨k', v'⟩ := kv
    simp only [List.map_cons, List.nodup_cons] at h
    by_cases hk : k' = k
    · subst hk
      have h1 : dictSet ((k', v') :: t) k' v = (k', v) :: t := by simp [dictSet]
      rw [h1]
      simp only [List.map_cons, List.nodup_cons]
      exact ⟨h.1, h.2⟩
    · have h1 : dictSet ((k', v') :: t) k v = (k', v') :: dictSet t k v := by
        simp [dictSet, hk]
      rw [h1]
      simp only [List.map_cons, List.nodup_cons]
      refine ⟨?_, ih h.2⟩
      intro hm
      rcases (mem_keys_dictSet t k v k').mp hm with h2 | h2
      · exact h.1 h2
      · exact hk h2

theorem alookup_dictSet_self {α : Type} (l : List (String × α)) (k : String) (v : α) :
    alookup (dictSet l k v) k = some v := by
  induction l with
  | nil => simp [dictSet, alookup]
  | cons kv t ih =>
    obtain ⟨k', v'⟩ := kv
    by_cases hk : k' = k
    · subst hk
      simp [dictSet, alookup]
    · simp [dictSet, alookup, hk, ih]

theorem alookup_dictSet_ne {α : Type} (l : List (String × α)) (k a : String) (v : α)
    (ha : a ≠ k) : alookup (dictSet l k v) a = alookup l a := by
  induction l with
  | nil =>
    simp only [dictSet, alookup]
    rw [if_neg (Ne.symm ha)]
  | cons kv t ih =>
    obtain ⟨k', v'⟩ := kv
    by_cases hk : k' = k
    · subst hk
      have h1 : dictSet ((k', v') :: t) k' v = (k', v) :: t := by simp [dictSet]
      rw [h1]
      simp only [alookup]
      rw [if_neg (Ne.symm ha), if_neg (Ne.symm ha)]
    · have h1 : dictSet ((k', v') :: t) k v = (k', v') :: dictSet t k v := by
        simp [dictSet, hk]
      rw [h1]
      simp only [alookup]
      by_cases hka : k' = a
      · rw [if_pos hka, if_pos hka]
      · rw [if_neg hka, if_neg hka, ih]

theorem insByKey_perm {α : Type} (x : String × α) (l : List (String × α)) :
    List.Perm (insByKey x l) (x :: l) := by
  induction l with
  | nil => rfl
  | cons y ys ih =>
    simp only [insByKey]
    by_cases h : keyLe x y = true
    · rw [if_pos h]
    · rw [if_neg h]
      exact List.Perm.trans (List.Perm.cons y ih) (List.Perm.swap x y ys)

theorem sortByKey_perm {α : Type} (l : List (String × α)) :
    List.Perm (sortByKey l) l := by
  induction l with
  | nil => rfl
  | cons x xs ih =>
    exact List.Perm.trans (insByKey_perm x (sortByKey xs)) (List.Perm.cons x ih)

theorem clLe_total (a b : CL) : clLe a b = true ∨ clLe b a = true := by
  induction a generalizing b with
  | nil => left; rfl
  | cons x xs ih =>
    cases b with
    | nil => right; rfl
    | cons y ys =>
      rcases Nat.lt_trichotomy x.toNat y.toNat with h | h | h
      · left; simp [clLe, h]
      · have h1 : ¬x.toNat < y.toNat := by omega
        have h2 : ¬y.toNat < x.toNat := by omega
        rcases ih ys with hl | hl
        · left; simp [clLe, h1, h2, hl]
        · right; simp [clLe, h1, h2, hl]
      · right; simp [clLe, h]

theorem clLe_trans {a b c : CL} (hab : clLe a b = true) (hbc : clLe b c = true) :
    clLe a c = true := by
  induction a generalizing b c with
  | nil => rfl
  | cons x xs ih =>
    cases b with
    | nil => simp [clLe] at hab
    | cons y ys =>
      cases c with
      | nil => simp [clLe] at hbc
      | cons z zs =>
        simp only [clLe] at hab hbc ⊢
        rcases Nat.lt_trichotomy x.toNat y.toNat with h1 | h1 | h1 <;>
          rcases Nat.lt_trichotomy y.toNat z.toNat with h2 | h2 | h2
        all_goals
          first
          | (simp only [if_pos (by omega : x.toNat < z.toNat)])
          | (rw [if_neg (by omega : ¬x.toNat < z.toNat),
               if_neg (by omega : ¬z.toNat < x.toNat)]
             rw [if_neg (by omega : ¬x.toNat < y.toNat),
               if_neg (by omega : ¬y.toNat < x.toNat)] at hab
             rw [if_neg (by omega : ¬y.toNat < z.toNat),
               if_neg (by omega : ¬z.toNat < y.toNat)] at hbc
             exact ih hab hbc)
          | (exfalso
             rw [if_neg (by omega : ¬x.toNat < y.toNat)] at hab
             rw [if_pos (by omega : y.toNat < x.toNat)] at hab
             exact Bool.false_ne_true hab)
          | (exfalso
             rw [if_neg (by omega : ¬y.toNat < z.toNat)] at hbc
             rw [if_pos (by omega : z.toNat < y.toNat)] at hbc
             exact Bool.false_ne_true hbc)

theorem keyLe_total {α : Type} (x y : String × α) :
    keyLe x y = true ∨ keyLe y x = true := clLe_total x.1.data y.1.data

theorem keyLe_trans {α : Type} {x y z : String × α}
    (h1 : keyLe x y = true) (h2 : keyLe y z = true) : keyLe x z = true :=
  clLe_trans h1 h2

theorem mem_insByKey {α : Type} (x z : String × α) (l : List (String × α))
    (h : z ∈ insByKey x l) : z = x ∨ z ∈ l := by
  have := (insByKey_perm x l).mem_iff.mp h
  simpa using this

theorem insByKey_pairwise {α : Type} (x : String × α) (l : List (String × α))
    (h : List.Pairwise (fun a b => keyLe a b = true) l) :
    List.Pairwise (fun a b => keyLe a b = true) (insByKey x l) := by
  induction l with
  | nil => simp [insByKey]
  | cons y ys ih =>
    rcases List.pairwise_cons.mp h with ⟨hy, hys⟩
    simp only [insByKey]
    by_cases hxy : keyLe x y = true
    · rw [if_pos hxy]
      refine List.Pairwise.cons ?_ h
      intro z hz
      rcases List.mem_cons.mp hz with rfl | hz2
      · exact hxy
      · exact keyLe_trans hxy (hy z hz2)
    · rw [if_neg hxy]
      refine List.Pairwise.cons ?_ (ih hys)
      intro z hz
      rcases mem_insByKey x z ys hz with rfl | hz2
      · rcases keyLe_total z y with h1 | h1
        · exact absurd h1 hxy
        · exact h1
      · exact hy z hz2

theorem sortByKey_pairwise {α : Type} (l : List (String × α)) :
    List.Pairwise (fun a b => keyLe a b = true) (sortByKey l) := by
  induction l with
  | nil => exact List.Pairwise.nil
  | cons x xs ih => exact insByKey_pairwise x (sortByKey xs) ih

theorem insByKey_map {α β : Type} (g : α → β) (x : String × α) (l : List (String × α)) :
    insByKey (x.1, g x.2) (l.map fun kv => (kv.1, g kv.2)) =
      (insByKey x l).map fun kv => (kv.1, g kv.2) := by
  induction l with
  | nil => rfl
  | cons y ys ih =>
    simp only [List.map_cons, insByKey]
    have hkey : keyLe (x.1, g x.2) (y.1, g y.2) = keyLe x y := rfl
    rw [hkey]
    by_cases h : keyLe x y = true
    · rw [if_pos h, if_pos h]
      rfl
    · rw [if_neg h, if_neg h, List.map_cons, ih]

theorem sortByKey_map {α β : Type} (g : α → β) (l : List (String × α)) :
    sortByKey (l.map fun kv => (kv.1, g kv.2)) =
      (sortByKey l).map fun kv => (kv.1, g kv.2) := by
  induction l with
  | nil => rfl
  | cons x xs ih =>
    simp only [List.map_cons, sortByKey]
    rw [ih]
    exact insByKey_map g x (sortByKey xs)

theorem perm_alookup {α : Type} :
    ∀ {l l' : List (String × α)}, List.Perm l l' → (l.map Prod.fst).Nodup →
      ∀ k, alookup l k = alookup l' k := by
  intro l l' hp
  induction hp with
  | nil => intro _ _; rfl
  | cons x h ih =>
    intro hn k
    obtain ⟨x1, x2⟩ := x
    simp only [alookup]
    by_cases hx : x1 = k
    · rw [if_pos hx, if_pos hx]
    · rw [if_neg hx, if_neg hx]
      simp only [List.map_cons, List.nodup_cons] at hn
      exact ih hn.2 k
  | swap x y l =>
    intro hn k
    obtain ⟨x1, x2⟩ := x
    obtain ⟨y1, y2⟩ := y
    simp only [List.map_cons, List.nodup_cons, List.mem_cons] at hn
    have hxy : y1 ≠ x1 := fun h => hn.1 (Or.inl h)
    simp only [alookup]
    by_cases hy : y1 = k
    · rw [if_pos hy, if_neg (fun he => hxy (hy.trans he.symm)), if_pos hy]
    · by_cases hx : x1 = k
      · rw [if_neg hy, if_pos hx, if_pos hx]
      · rw [if_neg hy, if_neg hx, if_neg hx, if_neg hy]
  | trans h1 h2 ih1 ih2 =>
    intro hn k
    rw [ih1 hn k]
    exact ih2 (((h1.map Prod.fst).nodup_iff).mp hn) k

theorem alookup_map_value {α β : Type} (g : α → β) (l : List (String × α)) (k : String) :
    alookup (l.map fun kv => (kv.1, g kv.2)) k = (alookup l k).map g := by
  induction l with
  | nil => rfl
  | cons kv t ih =>
    obtain ⟨k', v'⟩ := kv
    simp only [List.map_cons, alookup]
    by_cases hk : k' = k
    · rw [if_pos hk, if_pos hk]; rfl
    · rw [if_neg hk, if_neg hk, ih]

theorem alookup_append_cons {α : Type} (pre post : List (String × α)) (k : String) (v : α)
    (h : k ∉ pre.map Prod.fst) :
    alookup (pre ++ (k, v) :: post) k = some v := by
  induction pre with
  | nil => simp [alookup]
  | cons kv t ih =>
    obtain ⟨k', v'⟩ := kv
    have hk : k' ≠ k := fun he => h (by simp [he])
    simp only [List.cons_append, alookup, if_neg hk]
    exact ih fun hm => h (by simp [hm])

theorem map_fst_stripEntry (l : List (String × WVal)) :
    (l.map stripEntry).map Prod.fst = l.map Prod.fst := by
  induction l with
  | nil => rfl
  | cons kv t ih => simp [stripEntry, ih]

theorem stripBad_no_bad (s : String) : ∀ c ∈ badChars, c ∉ (stripBad s).data := by
  intro c hc hm
  have := List.mem_filter.mp hm
  rw [Bool.not_eq_true'] at this
  have h2 : badChars.contains c = false := by simpa using this.2
  have h3 : badChars.elem c = true := List.elem_eq_true_of_mem hc
  rw [show List.contains badChars c = badChars.elem c from rfl, h3] at h2
  exact Bool.noConfusion h2

theorem stripEntry_eq (kv : String × WVal) :
    stripEntry kv = (kv.1, (fun v => stripBad (pyStr v)) kv.2) := rfl

/-- Claim C4 (amended: the parameter map must not already contain the key
`w_rid`, otherwise the signature overwrites that entry in place instead of
appending): the signed dict is the sorted, stripped parameter set (with `wts`
added) followed by the appended `w_rid` entry, whose value is the digest of
the URL-encoded sorted query concatenated with the mixin key; the serialized
keys are in ascending code-point order, the entries are exactly the stripped
`(key, str(value))` pairs (as a permutation), no value retains a character
from `!'()*`, and `get_query` returns the re-encoding of the signed dict. -/
theorem enc_wbi_structure (params : List (String × WVal)) (ik sk : String) (t : Int)
    (md5hex : String → String) (hw : "w_rid" ∉ params.map Prod.fst) :
    enc_wbi params ik sk t md5hex =
      ((sortByKey (dictSet params "wts" (WVal.wint t))).map stripEntry) ++
        [("w_rid", md5hex (urlencode ((sortByKey (dictSet params "wts"
          (WVal.wint t))).map stripEntry) ++ get_mixin_key (ik ++ sk)))] ∧
    List.Pairwise (fun a b => clLe a.data b.data = true)
      (((sortByKey (dictSet params "wts" (WVal.wint t))).map stripEntry).map Prod.fst) ∧
    List.Perm ((sortByKey (dictSet params "wts" (WVal.wint t))).map stripEntry)
      ((dictSet params "wts" (WVal.wint t)).map stripEntry) ∧
    (∀ kv ∈ (sortByKey (dictSet params "wts" (WVal.wint t))).map stripEntry,
      ∀ c ∈ badChars, c ∉ kv.2.data) ∧
    get_query_signed params ik sk t md5hex = urlencode (enc_wbi params ik sk t md5hex) := by
  have hnotin : "w_rid" ∉
      (((sortByKey (dictSet params "wts" (WVal.wint t))).map stripEntry).map Prod.fst) := by
    rw [map_fst_stripEntry]
    intro hm
    have hperm := (sortByKey_perm (dictSet params "wts" (WVal.wint t))).map Prod.fst
    have hm2 := hperm.mem_iff.mp hm
    rcases (mem_keys_dictSet params "wts" (WVal.wint t) "w_rid").mp hm2 with h1 | h1
    · exact hw h1
    · exact absurd h1 (by decide)
  refine ⟨?_, ?_, ?_, ?_, rfl⟩
  · have hform : enc_wbi params ik sk t md5hex =
        dictSet ((sortByKey (dictSet params "wts" (WVal.wint t))).map stripEntry) "w_rid"
          (md5hex (urlencode ((sortByKey (dictSet params "wts"
            (WVal.wint t))).map stripEntry) ++ get_mixin_key (ik ++ sk))) := rfl
    rw [hform]
    exact dictSet_notMem _ _ _ hnotin
  · rw [map_fst_stripEntry]
    have hs := sortByKey_pairwise (dictSet params "wts" (WVal.wint t))
    rw [List.pairwise_map]
    exact hs
  · exact (sortByKey_perm (dictSet params "wts" (WVal.wint t))).map stripEntry
  · intro kv hkv c hc
    rcases List.mem_map.mp hkv with ⟨kv0, _, rfl⟩
    exact stripBad_no_bad (pyStr kv0.2) c hc

/-- Test key pair (two 32-character strings, as the nav endpoint issues). -/
def imgKeyT : String := "7cd084941338484aae1ad9425b84077c"
def subKeyT : String := "4932caff0ff746eab6f01bf08b70ac45"

/-- Claim C4 counterexample: when the caller's parameter map already contains
`w_rid`, the signature is written over the existing entry in its sorted
position instead of being appended — the last entry of the signed dict is
`("z", …)`, not the `w_rid` entry. -/
theorem enc_wbi_wrid_not_appended :
    ((enc_wbi [("w_rid", WVal.wstr "x"), ("z", WVal.wstr "1")] imgKeyT subKeyT 10
        (fun _ => "sig")).map Prod.fst) = ["w_rid", "wts", "z"] ∧
    ("w_rid" : String) ≠ "z" := by
  constructor
  · decide
  · decide

/-- Witness for the amended C4 theorem: concrete two-parameter map without
`w_rid`; the signed dict decomposes as sorted-stripped parameters plus the
appended `w_rid` entry. -/
theorem enc_wbi_structure_witness :
    enc_wbi [("foo", WVal.wstr "114"), ("bar", WVal.wstr "51(4)")] imgKeyT subKeyT 1700000000
        (fun q => q) =
      ((sortByKey (dictSet [("foo", WVal.wstr "114"), ("bar", WVal.wstr "51(4)")] "wts"
          (WVal.wint 1700000000))).map stripEntry) ++
        [("w_rid", (urlencode ((sortByKey (dictSet [("foo", WVal.wstr "114"),
          ("bar", WVal.wstr "51(4)")] "wts" (WVal.wint 1700000000))).map stripEntry) ++
          get_mixin_key (imgKeyT ++ subKeyT)))] :=
  (enc_wbi_structure [("foo", WVal.wstr "114"), ("bar", WVal.wstr "51(4)")] imgKeyT subKeyT
    1700000000 (fun q => q) (by decide)).1

theorem stripEntry_fun_eq :
    stripEntry = fun kv : String × WVal => (kv.1, (fun v => stripBad (pyStr v)) kv.2) :=
  funext fun _ => rfl

theorem sortByKey_map_strip (l : List (String × WVal)) :
    sortByKey (l.map stripEntry) = (sortByKey l).map stripEntry := by
  rw [stripEntry_fun_eq]
  exact sortByKey_map (fun v => stripBad (pyStr v)) l

theorem dictSet_map_strip (l : List (String × WVal)) (k : String) (v : WVal) :
    (dictSet l k v).map stripEntry =
      dictSet (l.map stripEntry) k (stripBad (pyStr v)) := by
  induction l with
  | nil => rfl
  | cons kv t ih =>
    obtain ⟨k', v'⟩ := kv
    by_cases hk : k' = k
    · subst hk
      simp [dictSet, stripEntry]
    · simp [dictSet, stripEntry, hk, ih]

theorem alookup_map_strip (l : List (String × WVal)) (k : String) :
    alookup (l.map stripEntry) k = (alookup l k).map fun v => stripBad (pyStr v) := by
  rw [stripEntry_fun_eq]
  exact alookup_map_value (fun v => stripBad (pyStr v)) l k

/-- The `enc_wbi` body with its `let` bindings spelled out. -/
theorem enc_wbi_form (q : List (String × WVal)) (ik sk : String) (t : Int)
    (m : String → String) :
    enc_wbi q ik sk t m =
      dictSet ((sortByKey (dictSet q "wts" (WVal.wint t))).map stripEntry) "w_rid"
        (m (urlencode ((sortByKey (dictSet q "wts" (WVal.wint t))).map stripEntry) ++
          get_mixin_key (ik ++ sk))) := rfl

/-- Claim C5 (amended): for fixed parameters, keys, timestamp and digest
function, `enc_wbi` is deterministic; and changing the value of one parameter
changes the signed output — and with it the query string fed to MD5 — exactly
when the *stripped* string form of that value changes: values whose stripped
forms coincide (e.g. `"x"` vs `"x!"`) produce identical signed dicts and
identical `w_rid`, while values with different stripped forms change the entry
recorded in the signed dict. -/
theorem enc_wbi_determinism_and_sensitivity :
    (∀ (p : List (String × WVal)) (ik sk : String) (t : Int) (m : String → String),
      enc_wbi p ik sk t m = enc_wbi p ik sk t m) ∧
    (∀ (pre post : List (String × WVal)) (k : String) (v v' : WVal) (ik sk : String)
        (t : Int) (m : String → String),
      stripBad (pyStr v) = stripBad (pyStr v') →
      enc_wbi (pre ++ (k, v) :: post) ik sk t m =
        enc_wbi (pre ++ (k, v') :: post) ik sk t m) ∧
    (∀ (pre post : List (String × WVal)) (k : String) (v v' : WVal) (ik sk : String)
        (t : Int) (m : String → String),
      ((pre ++ (k, v) :: post).map Prod.fst).Nodup →
      k ≠ "wts" → k ≠ "w_rid" →
      stripBad (pyStr v) ≠ stripBad (pyStr v') →
      enc_wbi (pre ++ (k, v) :: post) ik sk t m ≠
        enc_wbi (pre ++ (k, v') :: post) ik sk t m) := by
  refine ⟨fun p ik sk t m => rfl, ?_, ?_⟩
  · intro pre post k v v' ik sk t m hstrip
    have hS : (sortByKey (dictSet (pre ++ (k, v) :: post) "wts" (WVal.wint t))).map stripEntry =
        (sortByKey (dictSet (pre ++ (k, v') :: post) "wts" (WVal.wint t))).map stripEntry := by
      rw [← sortByKey_map_strip, ← sortByKey_map_strip]
      congr 1
      rw [dictSet_map_strip, dictSet_map_strip]
      congr 1
      simp only [List.map_append, List.map_cons, stripEntry, hstrip]
    rw [enc_wbi_form, enc_wbi_form, hS]
  · intro pre post k v v' ik sk t m hnodup hkwts hkwrid hne heq
    have hkeys : ((pre ++ (k, v') :: post).map Prod.fst) =
        ((pre ++ (k, v) :: post).map Prod.fst) := by simp
    have hnodup' : ((pre ++ (k, v') :: post).map Prod.fst).Nodup := by
      rw [hkeys]; exact hnodup
    have hkpre : k ∉ pre.map Prod.fst := by
      have hsplit : ((pre ++ (k, v) :: post).map Prod.fst) =
          pre.map Prod.fst ++ k :: post.map Prod.fst := by simp
      rw [hsplit] at hnodup
      have hdisj := List.disjoint_of_nodup_append hnodup
      intro hm
      exact hdisj hm (List.mem_cons_self k _)
    have hlook : ∀ (w : WVal), ((pre ++ (k, w) :: post).map Prod.fst).Nodup →
        alookup (enc_wbi (pre ++ (k, w) :: post) ik sk t m) k =
          some (stripBad (pyStr w)) := by
      intro w hnod
      rw [enc_wbi_form]
      rw [alookup_dictSet_ne _ _ _ _ hkwrid]
      rw [alookup_map_strip]
      have hmutnodup : (((dictSet (pre ++ (k, w) :: post) "wts"
          (WVal.wint t)).map Prod.fst)).Nodup :=
        keys_dictSet_nodup _ _ _ hnod
      have hsortnodup : (((sortByKey (dictSet (pre ++ (k, w) :: post) "wts"
          (WVal.wint t))).map Prod.fst)).Nodup :=
        (((sortByKey_perm _).map Prod.fst).nodup_iff).mpr hmutnodup
      rw [perm_alookup (sortByKey_perm _) hsortnodup k]
      rw [alookup_dictSet_ne _ _ _ _ hkwts]
      rw [alookup_append_cons pre post k w hkpre]
      rfl
    have h1 := hlook v hnodup
    have h2 := hlook v' hnodup'
    rw [heq] at h1
    rw [h2] at h1
    exact hne (Option.some.inj h1).symm

/-- Claim C5 counterexample: the parameter value `"x!"` differs from `"x"`,
yet the two signed dicts — and hence the two `w_rid` values — are identical,
because `!` is stripped before encoding. -/
theorem enc_wbi_strip_collision :
    enc_wbi [("a", WVal.wstr "x")] imgKeyT subKeyT 100 (fun q => q) =
      enc_wbi [("a", WVal.wstr "x!")] imgKeyT subKeyT 100 (fun q => q) ∧
    WVal.wstr "x" ≠ WVal.wstr "x!" := by
  constructor
  · decide
  · decide

/-- Witness for the amended C5 theorem: changing `"1"` to `"2"` (stripped
forms differ) changes the signed output. -/
theorem enc_wbi_sensitivity_witness :
    enc_wbi ([] ++ ("a", WVal.wstr "1") :: []) imgKeyT subKeyT 100 (fun q => q) ≠
      enc_wbi ([] ++ ("a", WVal.wstr "2") :: []) imgKeyT subKeyT 100 (fun q => q) :=
  enc_wbi_determinism_and_sensitivity.2.2 [] [] "a" (WVal.wstr "1") (WVal.wstr "2")
    imgKeyT subKeyT 100 (fun q => q) (by decide) (by decide) (by decide) (by decide)

/-- Claim C10: `enc_wbi` mutates the caller's dict in place exactly by setting
`wts` to the signing timestamp — every other key keeps its original
(unsorted, unstripped) value, and no `w_rid` key appears in the caller's dict
(when it was not there before); sorting, stripping and `w_rid` happen only on
the fresh dict that is returned. -/
theorem enc_wbi_mutates_params (params : List (String × WVal)) (ik sk : String)
    (t : Int) (m : String → String) :
    (enc_wbi_full params ik sk t m).2 = dictSet params "wts" (WVal.wint t) ∧
    alookup (enc_wbi_full params ik sk t m).2 "wts" = some (WVal.wint t) ∧
    (∀ k, k ≠ "wts" →
      alookup (enc_wbi_full params ik sk t m).2 k = alookup params k) ∧
    ("w_rid" ∉ params.map Prod.fst →
      "w_rid" ∉ ((enc_wbi_full params ik sk t m).2).map Prod.fst) ∧
    (enc_wbi_full params ik sk t m).1 = enc_wbi params ik sk t m := by
  refine ⟨rfl, ?_, ?_, ?_, rfl⟩
  · exact alookup_dictSet_self params "wts" (WVal.wint t)
  · intro k hk
    exact alookup_dictSet_ne params "wts" k (WVal.wint t) hk
  · intro hw hm
    rcases (mem_keys_dictSet params "wts" (WVal.wint t) "w_rid").mp hm with h | h
    · exact hw h
    · exact absurd h (by decide)

/-- Witness for C10: a concrete call leaves the `bvid` entry untouched in the
caller's dict. -/
theorem enc_wbi_mutates_params_witness :
    alookup (enc_wbi_full [("bvid", WVal.wstr "BV1xx411c7mD")] imgKeyT subKeyT 42
        (fun q => q)).2 "bvid" =
      alookup [("bvid", WVal.wstr "BV1xx411c7mD")] "bvid" :=
  (enc_wbi_mutates_params [("bvid", WVal.wstr "BV1xx411c7mD")] imgKeyT subKeyT 42
    (fun q => q)).2.2.1 "bvid" (by decide)
